import Mathlib

/-!
# Verification of the OZ-Stellar token ledger storage engine

A shallow embedding of the accounting core of the `OZ-Stellar-NFT` repository
(the `stellar-tokens` packages): the fungible balance/allowance ledger
(`packages/tokens/fungible/src/storage.rs`, plus the `capped` and `mintable`
extensions), the consecutive non-fungible ownership scheme
(`packages/tokens/non-fungible/src/extensions/consecutive/storage.rs` and the
sequential id counter), and the enumerable index
(`packages/tokens/non-fungible/src/extensions/enumerable/storage.rs`).

Host storage maps are embedded as association lists over decidable key types;
accounts and token ids are `Nat`, `i128` token amounts are `Int` with the
overflow checks written out explicitly, and every fallible contract entry
point returns `Except` with the contract's error enum.
-/

deriving instance DecidableEq for Except

namespace OZStellar

/-! ## Association-list model of the host key-value store -/

/-- Lookup in an association list (the first matching key wins, mirroring a
key-value store where each key is stored at most once). -/
def alLookup {α β : Type} [DecidableEq α] : List (α × β) → α → Option β
  | [], _ => none
  | (k, v) :: t, a => if k = a then some v else alLookup t a

/-- `set` on an association list: replace the first binding of the key, or
append a fresh binding at the end. -/
def alSet {α β : Type} [DecidableEq α] : List (α × β) → α → β → List (α × β)
  | [], a, v => [(a, v)]
  | (k, w) :: t, a, v => if k = a then (a, v) :: t else (k, w) :: alSet t a v

/-- `remove` on an association list: drop every binding of the key. -/
def alRemove {α β : Type} [DecidableEq α] : List (α × β) → α → List (α × β)
  | [], _ => []
  | (k, w) :: t, a => if k = a then alRemove t a else (k, w) :: alRemove t a

/-! ## Fungible ledger (`packages/tokens/fungible/src/storage.rs`) -/

/-- `i128::MAX`, the bound of the Soroban token amount type. -/
def I128_MAX : Int := 2 ^ 127 - 1

/-- Error enum `FungibleTokenError` (the variants reached by the embedded
operations). -/
inductive FungibleErr : Type
  | LessThanZero
  | InsufficientBalance
  | InsufficientAllowance
  | InvalidLiveUntilLedger
  | MathOverflow
  | ExceededCap
  | CapNotSet
  | InvalidCap
deriving DecidableEq, Repr

namespace Fungible

/-- The fungible ledger's storage: `StorageKey::TotalSupply` (instance tier)
and the `StorageKey::Balance(addr)` entries (persistent tier), with accounts
as `Nat`. -/
structure State where
  totalSupply : Int
  balances : List (Nat × Int)
deriving DecidableEq, Repr

/-- The empty contract storage: no supply recorded, no balance entries. -/
def emptyState : State := { totalSupply := 0, balances := [] }

/-- `balance`: the stored balance, defaulting to `0` when no entry exists. -/
def balance (s : State) (account : Nat) : Int := (alLookup s.balances account).getD 0

/-- `total_supply`: the stored supply, defaulting to `0`. -/
def total_supply (s : State) : Int := s.totalSupply

/-- The `from` half of `update` (`storage.rs` lines 323-338): with `from`
set, check and decrement its balance; with `from` unset, mint by adding to
the supply with the `i128` `checked_add` bound. -/
def updateFrom : Option Nat → Int → State → Except FungibleErr State
  | some a, amount, s =>
    if balance s a < amount then .error .InsufficientBalance
    else .ok { s with balances := alSet s.balances a (balance s a - amount) }
  | none, amount, s =>
    if I128_MAX < s.totalSupply + amount then .error .MathOverflow
    else .ok { s with totalSupply := s.totalSupply + amount }

/-- The `to` half of `update` (`storage.rs` lines 340-351): with `to` set,
add to its balance (no check: the source notes it cannot overflow); with
`to` unset, burn by subtracting from the supply. This half cannot fail. -/
def applyTo : Option Nat → Int → State → State
  | some a, amount, s1 => { s1 with balances := alSet s1.balances a (balance s1 a + amount) }
  | none, amount, s1 => { s1 with totalSupply := s1.totalSupply - amount }

/-- `update(from, to, amount)`: the sole mutator of balances and supply,
mirroring `storage.rs` lines 319-352. `None` on the `from` side mints,
`None` on the `to` side burns. -/
def update (fromAcc toAcc : Option Nat) (amount : Int) (s : State) :
    Except FungibleErr State :=
  if amount < 0 then .error .LessThanZero
  else
    match updateFrom fromAcc amount s with
    | .error e => .error e
    | .ok s1 => .ok (applyTo toAcc amount s1)

/-- Storage container `AllowanceData`: granted amount plus the ledger number
at which the allowance expires. -/
structure AllowanceData where
  amount : Int
  live_until_ledger : Nat
deriving DecidableEq, Repr

/-- The host ledger facts an allowance operation reads: the current ledger
sequence number `e.ledger().sequence()` and
`e.ledger().max_live_until_ledger()`. -/
structure LedgerEnv where
  seq : Nat
  maxLive : Nat
deriving DecidableEq, Repr

/-- `allowance_data`: the stored entry, defaulting to
`AllowanceData { amount: 0, live_until_ledger: 0 }`. -/
def allowance_data (entry : Option AllowanceData) : AllowanceData :=
  entry.getD ⟨0, 0⟩

/-- `allowance`: the stored amount, treated as `0` when the entry's
`live_until_ledger` is below the current ledger number. -/
def allowance (env : LedgerEnv) (entry : Option AllowanceData) : Int :=
  let a := allowance_data entry
  if a.live_until_ledger < env.seq then 0 else a.amount

/-- `set_allowance` (`storage.rs` lines 166-199): validates the amount and
the expiry ledger, then stores the entry (the TTL extension performed on the
temporary tier does not change the stored value). -/
def set_allowance (env : LedgerEnv) (amount : Int) (live_until_ledger : Nat) :
    Except FungibleErr AllowanceData :=
  if amount < 0 then .error .LessThanZero
  else if env.maxLive < live_until_ledger ∨ (0 < amount ∧ live_until_ledger < env.seq) then
    .error .InvalidLiveUntilLedger
  else .ok ⟨amount, live_until_ledger⟩

/-- `spend_allowance` (`storage.rs` lines 222-236): re-reads the raw stored
entry, fails when the *stored* amount is below the requested one, and for a
positive spend writes back the decremented amount with the stored expiry. -/
def spend_allowance (env : LedgerEnv) (entry : Option AllowanceData) (amount : Int) :
    Except FungibleErr (Option AllowanceData) :=
  if amount < 0 then .error .LessThanZero
  else
    let a := allowance_data entry
    if a.amount < amount then .error .InsufficientAllowance
    else if 0 < amount then
      match set_allowance env (a.amount - amount) a.live_until_ledger with
      | .error e => .error e
      | .ok d => .ok (some d)
    else .ok entry

/-- `set_cap` (`capped/storage.rs` lines 25-30): rejects a negative cap,
otherwise records it. -/
def set_cap (cap : Int) : Except FungibleErr Int :=
  if cap < 0 then .error .InvalidCap else .ok cap

/-- `check_cap` (`capped/storage.rs` lines 60-70): fails `CapNotSet` when no
cap is recorded, `ExceededCap` when `cap < amount + total_supply`. -/
def check_cap (cap : Option Int) (totalSupply amount : Int) : Except FungibleErr Unit :=
  match cap with
  | none => .error .CapNotSet
  | some c => if c < amount + totalSupply then .error .ExceededCap else .ok ()

/-- `mint` (`mintable/storage.rs` lines 38-41): `update(None, Some(to), amount)`. -/
def mint (s : State) (toAcc : Nat) (amount : Int) : Except FungibleErr State :=
  update none (some toAcc) amount s

/-- Cap-checked minting: `check_cap` followed by `mint`, the pattern the
`capped` extension documentation prescribes. -/
def capped_mint (cap : Option Int) (s : State) (toAcc : Nat) (amount : Int) :
    Except FungibleErr State :=
  match check_cap cap s.totalSupply amount with
  | .error e => .error e
  | .ok _ => mint s toAcc amount

/-- One call to `update`, as recorded in a trace: `mint` is
`⟨none, some to, amount⟩`, `burn` is `⟨some from, none, amount⟩`, `transfer`
is `⟨some from, some to, amount⟩`. -/
structure Op where
  src : Option Nat
  dst : Option Nat
  amount : Int
deriving DecidableEq, Repr

/-- Run a sequence of `update` calls, failing as soon as one fails. -/
def applyOps (s : State) : List Op → Except FungibleErr State
  | [] => .ok s
  | op :: rest =>
    match update op.src op.dst op.amount s with
    | .error e => .error e
    | .ok s1 => applyOps s1 rest

/-- The accounts named by one optional operand. -/
def optAcct : Option Nat → Finset Nat
  | none => ∅
  | some a => {a}

/-- All accounts ever touched by a sequence of `update` calls. -/
def touchedAccounts : List Op → Finset Nat
  | [] => ∅
  | op :: rest => optAcct op.src ∪ optAcct op.dst ∪ touchedAccounts rest

/-- Keys of a balance table. -/
def keys (l : List (Nat × Int)) : List Nat := l.map Prod.fst

/-- Sum of all stored balances. -/
def sumVals (l : List (Nat × Int)) : Int := (l.map Prod.snd).sum

/-- The data-structure invariant carried through a trace: balance keys are
unique, each one belongs to the touched set `T`, and the recorded supply is
the sum of the recorded balances. -/
def GoodInv (s : State) (T : Finset Nat) : Prop :=
  (keys s.balances).Nodup ∧ (∀ a ∈ keys s.balances, a ∈ T) ∧
    s.totalSupply = sumVals s.balances

end Fungible

/-! ## Non-fungible ledger: errors and token ids -/

/-- Error enum `NonFungibleTokenError` (the variants reached by the embedded
operations), plus `ArithUnderflow` standing for the plain Rust unsigned
arithmetic panic in `batch_mint`'s `first_id + amount - 1` (not a contract
error code). -/
inductive NFTErr : Type
  | NonExistentToken
  | IncorrectOwner
  | MathOverflow
  | TokenNotFoundInOwnerList
  | TokenNotFoundInGlobalList
  | TokenIDsAreDepleted
  | ArithUnderflow
deriving DecidableEq, Repr

/-- `TokenId::MAX`: the crate's token ids are unsigned (`u32` under the
default `token_u32` feature); ids and balances are embedded as `Nat` with
this explicit bound at every `checked_add`. -/
def TOKEN_ID_MAX : Nat := 2 ^ 32 - 1

namespace Consecutive

/-- The storage read by the consecutive extension: the sequential
`TokenIdCounter` (instance tier), the sparse `StorageKey::Owner` records,
the `StorageKey::BurnedToken` markers, the `StorageKey::Approval` slots
(value: approved address and expiry ledger), and the per-account balance
counters. Addresses and token ids are `Nat`. -/
structure State where
  counter : Nat
  owners : List (Nat × Nat)
  burned : List (Nat × Bool)
  approvals : List (Nat × (Nat × Nat))
  balances : List (Nat × Nat)
deriving DecidableEq, Repr

/-- Fresh contract storage. -/
def emptyState : State := ⟨0, [], [], [], []⟩

/-- `sequential::next_token_id` (`utils/sequential/storage.rs` lines 16-18):
the counter, defaulting to 0. -/
def next_token_id (s : State) : Nat := s.counter

/-- `sequential::increment_token_id` (`utils/sequential/storage.rs` lines
31-38): returns the current counter and bumps it by `amount` with a
`checked_add` (`MathOverflow`). -/
def increment_token_id (s : State) (amount : Nat) : Except NFTErr (State × Nat) :=
  if TOKEN_ID_MAX < s.counter + amount then .error .MathOverflow
  else .ok ({ s with counter := s.counter + amount }, s.counter)

/-- Modelled from the spec: `Base::balance` — "Balance (NFT): count of
tokens owned, reuses Base's per-account counter"; an absent entry reads
as 0. The Base ledger's own storage module is not among the provided
sources; only its spec-level behavior is used here. -/
def nftBalance (s : State) (a : Nat) : Nat := (alLookup s.balances a).getD 0

/-- Modelled from the spec: `Base::increase_balance` — "Balance
increments/decrements use checked arithmetic (`MathOverflow`)". -/
def increase_balance (s : State) (a : Nat) (amt : Nat) : Except NFTErr State :=
  if TOKEN_ID_MAX < nftBalance s a + amt then .error .MathOverflow
  else .ok { s with balances := alSet s.balances a (nftBalance s a + amt) }

/-- Modelled from the spec: `Base::decrease_balance` — checked subtraction
of the per-account counter (`MathOverflow` on underflow). -/
def decrease_balance (s : State) (a : Nat) (amt : Nat) : Except NFTErr State :=
  if nftBalance s a < amt then .error .MathOverflow
  else .ok { s with balances := alSet s.balances a (nftBalance s a - amt) }

/-- The `BurnedToken` marker, `get(..).unwrap_or(false)`. -/
def isBurned (s : State) (token_id : Nat) : Bool := (alLookup s.burned token_id).getD false

/-- The backward scan of `owner_of` (`consecutive/storage.rs` lines 78-91):
`(0..=token_id).rev().find_map(owner record)`. -/
def scanBackOwner (owners : List (Nat × Nat)) : Nat → Option Nat
  | 0 => alLookup owners 0
  | n + 1 =>
    match alLookup owners (n + 1) with
    | some a => some a
    | none => scanBackOwner owners n

/-- `Consecutive::owner_of` (`consecutive/storage.rs` lines 66-93): rejects
ids at or beyond the counter or marked burned, otherwise scans backward to
the nearest owner record; a scan that finds nothing also panics
`NonExistentToken`. -/
def owner_of (s : State) (token_id : Nat) : Except NFTErr Nat :=
  if s.counter ≤ token_id ∨ isBurned s token_id then .error .NonExistentToken
  else
    match scanBackOwner s.owners token_id with
    | some a => .ok a
    | none => .error .NonExistentToken

/-- `Consecutive::set_owner_for` (`consecutive/storage.rs` lines 404-429):
writes the owner record only when the token is minted (`token_id < max`),
has no owner record, and carries no burn marker; otherwise a no-op. -/
def set_owner_for (s : State) (toAcc : Nat) (token_id : Nat) : State :=
  if token_id < s.counter ∧ alLookup s.owners token_id = none ∧ ¬isBurned s token_id then
    { s with owners := alSet s.owners token_id toAcc }
  else s

/-- The `to` half of `Consecutive::update` (`consecutive/storage.rs` lines
379-389): record the new owner at `token_id`, or, when burning, remove the
owner record and set the burn marker. -/
def updateTo : Option Nat → Nat → State → Except NFTErr State
  | some t, token_id, s3 =>
    match increase_balance s3 t 1 with
    | .error e => .error e
    | .ok s4 => .ok { s4 with owners := alSet s4.owners token_id t }
  | none, token_id, s3 =>
    .ok { s3 with owners := alRemove s3.owners token_id,
                  burned := alSet s3.burned token_id true }

/-- `Consecutive::update` (`consecutive/storage.rs` lines 357-390): on the
`from` side, verify the inferred owner, decrement the balance, clear the
approval slot and conditionally repair the boundary at `token_id + 1`; then
run the `to` side. -/
def update (s : State) (fromAcc toAcc : Option Nat) (token_id : Nat) :
    Except NFTErr State :=
  match fromAcc with
  | some f =>
    match owner_of s token_id with
    | .error e => .error e
    | .ok owner =>
      if owner ≠ f then .error .IncorrectOwner
      else
        match decrease_balance s f 1 with
        | .error e => .error e
        | .ok s1 =>
          let s2 := { s1 with approvals := alRemove s1.approvals token_id }
          updateTo toAcc token_id (set_owner_for s2 f (token_id + 1))
  | none => updateTo toAcc token_id s

/-- `Consecutive::batch_mint` (`consecutive/storage.rs` lines 150-162):
reserve `amount` ids, record the first id's owner, bump the balance, and
return `first_id + amount - 1`; the subtraction is the unsigned `TokenId`
arithmetic, which underflows when `first_id + amount = 0`. -/
def batch_mint (s : State) (toAcc : Nat) (amount : Nat) : Except NFTErr (State × Nat) :=
  match increment_token_id s amount with
  | .error e => .error e
  | .ok (s1, first_id) =>
    let s2 := { s1 with owners := alSet s1.owners first_id toAcc }
    match increase_balance s2 toAcc amount with
    | .error e => .error e
    | .ok s3 =>
      if first_id + amount = 0 then .error .ArithUnderflow
      else .ok (s3, first_id + amount - 1)

/-- `Consecutive::transfer` (`consecutive/storage.rs` lines 248-253):
authorization is host-provided; the state change is
`update(Some(from), Some(to), token_id)`. -/
def transfer (s : State) (f t token_id : Nat) : Except NFTErr State :=
  update s (some f) (some t) token_id

end Consecutive

namespace Enumerable

/-- The storage read by the enumerable extension: the owner-local forward
map `OwnerTokens((owner, index)) → token`, the reverse map
`OwnerTokensIndex(token) → index` (keyed by token only), the global pair
`GlobalTokens(index) → token` / `GlobalTokensIndex(token) → index`, and the
per-account balance counters. -/
structure State where
  ownerTokens : List ((Nat × Nat) × Nat)
  ownerTokensIndex : List (Nat × Nat)
  globalTokens : List (Nat × Nat)
  globalTokensIndex : List (Nat × Nat)
  balances : List (Nat × Nat)
deriving DecidableEq, Repr

/-- Modelled from the spec: `Base::balance` — the per-account token counter
read as the last index bound by `remove_from_owner_enumeration`; the Base
ledger's storage module is not among the provided sources. -/
def nftBalance (s : State) (a : Nat) : Nat := (alLookup s.balances a).getD 0

/-- `Enumerable::get_owner_token_id` (`enumerable/storage.rs` lines 65-73). -/
def get_owner_token_id (s : State) (owner index : Nat) : Except NFTErr Nat :=
  match alLookup s.ownerTokens (owner, index) with
  | none => .error .TokenNotFoundInOwnerList
  | some tid => .ok tid

/-- `Enumerable::get_token_id` (`enumerable/storage.rs` lines 95-103). -/
def get_token_id (s : State) (index : Nat) : Except NFTErr Nat :=
  match alLookup s.globalTokens index with
  | none => .error .TokenNotFoundInGlobalList
  | some tid => .ok tid

/-- `Enumerable::remove_from_owner_enumeration` (`enumerable/storage.rs`
lines 476-513): look up the removed token's index; when it is not the last
slot (the owner's already-decremented balance), move the last token into the
freed slot and update its reverse pointer; finally delete the last forward
slot and the removed token's reverse pointer. -/
def remove_from_owner_enumeration (s : State) (owner t : Nat) : Except NFTErr State :=
  match alLookup s.ownerTokensIndex t with
  | none => .error .TokenNotFoundInOwnerList
  | some idx =>
    let last := nftBalance s owner
    if idx ≠ last then
      match alLookup s.ownerTokens (owner, last) with
      | none => .error .TokenNotFoundInOwnerList
      | some ltid =>
        .ok { s with
          ownerTokens := alRemove (alSet s.ownerTokens (owner, idx) ltid) (owner, last),
          ownerTokensIndex := alRemove (alSet s.ownerTokensIndex ltid idx) t }
    else
      .ok { s with
        ownerTokens := alRemove s.ownerTokens (owner, last),
        ownerTokensIndex := alRemove s.ownerTokensIndex t }

/-- `Enumerable::remove_from_global_enumeration` (`enumerable/storage.rs`
lines 540-571): the same removal on the global maps, but with an
*unconditional* swap — the token at `last_token_index` is always read and
moved into the freed slot. -/
def remove_from_global_enumeration (s : State) (t n : Nat) : Except NFTErr State :=
  match alLookup s.globalTokensIndex t with
  | none => .error .TokenNotFoundInGlobalList
  | some idx =>
    match alLookup s.globalTokens n with
    | none => .error .TokenNotFoundInGlobalList
    | some ltid =>
      .ok { s with
        globalTokens := alRemove (alSet s.globalTokens idx ltid) n,
        globalTokensIndex := alRemove (alSet s.globalTokensIndex ltid idx) t }

/-- The owner-local removal algorithm of
`remove_from_owner_enumeration` transcribed onto the global maps — with its
*conditional* swap-with-last — written from the spec's words as the
reference point for claim C8's equivalence. -/
def remove_from_global_conditional (s : State) (t n : Nat) : Except NFTErr State :=
  match alLookup s.globalTokensIndex t with
  | none => .error .TokenNotFoundInGlobalList
  | some idx =>
    if idx ≠ n then
      match alLookup s.globalTokens n with
      | none => .error .TokenNotFoundInGlobalList
      | some ltid =>
        .ok { s with
          globalTokens := alRemove (alSet s.globalTokens idx ltid) n,
          globalTokensIndex := alRemove (alSet s.globalTokensIndex ltid idx) t }
    else
      .ok { s with
        globalTokens := alRemove s.globalTokens n,
        globalTokensIndex := alRemove s.globalTokensIndex t }

end Enumerable

/-! ## Helper lemmas -/

theorem alLookup_alSet {α β : Type} [DecidableEq α] (l : List (α × β)) (a b : α) (v : β) :
    alLookup (alSet l a v) b = if a = b then some v else alLookup l b := by
  induction l with
  | nil => simp [alSet, alLookup]
  | cons p t ih =>
    obtain ⟨k, w⟩ := p
    by_cases hk : k = a
    · subst hk
      by_cases hb : k = b <;> simp [alSet, alLookup, hb]
    · by_cases hkb : k = b
      · subst hkb
        have hab : ¬a = k := fun h => hk h.symm
        simp [alSet, hk, alLookup, hab]
      · simp [alSet, hk, alLookup, hkb, ih]

theorem alLookup_alRemove {α β : Type} [DecidableEq α] (l : List (α × β)) (a b : α) :
    alLookup (alRemove l a) b = if a = b then none else alLookup l b := by
  induction l with
  | nil => simp [alRemove, alLookup]
  | cons p t ih =>
    obtain ⟨k, w⟩ := p
    by_cases hk : k = a
    · subst hk
      by_cases hb : k = b
      · subst hb
        simp [alRemove, ih]
      · simp [alRemove, alLookup, hb, ih]
    · by_cases hkb : k = b
      · subst hkb
        have hab : ¬a = k := fun h => hk h.symm
        simp [alRemove, hk, alLookup, hab]
      · simp [alRemove, hk, alLookup, hkb, ih]

/-- Setting a key to the value it already holds leaves the list unchanged. -/
theorem alSet_of_alLookup_eq {α β : Type} [DecidableEq α] (l : List (α × β)) (a : α) (v : β)
    (h : alLookup l a = some v) : alSet l a v = l := by
  induction l with
  | nil => simp [alLookup] at h
  | cons p t ih =>
    obtain ⟨k, w⟩ := p
    by_cases hk : k = a
    · subst hk
      simp [alLookup] at h
      simp [alSet, h]
    · simp only [alLookup, if_neg hk] at h
      simp [alSet, hk, ih h]

/-- Removing a key erases any `set` just performed on that key. -/
theorem alRemove_alSet_self {α β : Type} [DecidableEq α] (l : List (α × β)) (a : α) (v : β) :
    alRemove (alSet l a v) a = alRemove l a := by
  induction l with
  | nil => simp [alSet, alRemove]
  | cons p t ih =>
    obtain ⟨k, w⟩ := p
    by_cases hk : k = a
    · subst hk
      simp [alSet, alRemove, ih]
    · simp [alSet, alRemove, hk, ih]

namespace Fungible

theorem sumVals_alSet (l : List (Nat × Int)) (a : Nat) (v : Int) :
    sumVals (alSet l a v) = sumVals l + v - (alLookup l a).getD 0 := by
  induction l with
  | nil => simp [alSet, alLookup, sumVals]
  | cons p t ih =>
    obtain ⟨k, w⟩ := p
    by_cases hk : k = a
    · subst hk
      simp [alSet, alLookup, sumVals]
      ring
    · simp [alSet, alLookup, hk, sumVals] at *
      omega

theorem mem_keys_cons {k : Nat} {w : Int} {t : List (Nat × Int)} {b : Nat} :
    b ∈ keys ((k, w) :: t) ↔ b = k ∨ b ∈ keys t := by
  simp [keys]

theorem alLookup_eq_none_of_not_mem_keys (l : List (Nat × Int)) (a : Nat)
    (h : a ∉ keys l) : alLookup l a = none := by
  induction l with
  | nil => simp [alLookup]
  | cons p t ih =>
    obtain ⟨k, w⟩ := p
    rw [mem_keys_cons] at h
    push_neg at h
    have hka : ¬k = a := fun hh => h.1 hh.symm
    simp [alLookup, hka, ih h.2]

theorem mem_keys_alSet (l : List (Nat × Int)) (a b : Nat) (v : Int)
    (h : b ∈ keys (alSet l a v)) : b ∈ keys l ∨ b = a := by
  induction l with
  | nil =>
    simp only [alSet, keys, List.map_cons, List.map_nil, List.mem_singleton] at h
    exact Or.inr h
  | cons p t ih =>
    obtain ⟨k, w⟩ := p
    by_cases hk : k = a
    · subst hk
      have hset : alSet ((k, w) :: t) k v = (k, v) :: t := by simp [alSet]
      rw [hset, mem_keys_cons] at h
      rcases h with h | h
      · exact Or.inl (mem_keys_cons.mpr (Or.inl h))
      · exact Or.inl (mem_keys_cons.mpr (Or.inr h))
    · have hset : alSet ((k, w) :: t) a v = (k, w) :: alSet t a v := by simp [alSet, hk]
      rw [hset, mem_keys_cons] at h
      rcases h with h | h
      · exact Or.inl (mem_keys_cons.mpr (Or.inl h))
      · rcases ih h with h' | h'
        · exact Or.inl (mem_keys_cons.mpr (Or.inr h'))
        · exact Or.inr h'

theorem nodup_keys_alSet (l : List (Nat × Int)) (a : Nat) (v : Int)
    (h : (keys l).Nodup) : (keys (alSet l a v)).Nodup := by
  induction l with
  | nil => simp [alSet, keys]
  | cons p t ih =>
    obtain ⟨k, w⟩ := p
    have hkeys : keys ((k, w) :: t) = k :: keys t := by simp [keys]
    rw [hkeys, List.nodup_cons] at h
    by_cases hk : k = a
    · subst hk
      have hset : alSet ((k, w) :: t) k v = (k, v) :: t := by simp [alSet]
      have hkeys2 : keys ((k, v) :: t) = k :: keys t := by simp [keys]
      rw [hset, hkeys2, List.nodup_cons]
      exact h
    · have hset : alSet ((k, w) :: t) a v = (k, w) :: alSet t a v := by simp [alSet, hk]
      have hkeys2 : keys ((k, w) :: alSet t a v) = k :: keys (alSet t a v) := by simp [keys]
      rw [hset, hkeys2, List.nodup_cons]
      refine ⟨?_, ih h.2⟩
      intro hmem
      rcases mem_keys_alSet t a k v hmem with h' | h'
      · exact h.1 h'
      · exact hk h'

/-- Summing the looked-up balance over any finite set of accounts that covers
the stored keys gives the sum of the stored values. -/
theorem sum_getD_eq_sumVals (l : List (Nat × Int)) :
    ∀ T : Finset Nat, (keys l).Nodup → (∀ a ∈ keys l, a ∈ T) →
      (∑ a ∈ T, (alLookup l a).getD 0) = sumVals l := by
  induction l with
  | nil => intro T _ _; simp [alLookup, sumVals]
  | cons p t ih =>
    obtain ⟨k, v⟩ := p
    intro T hnd hsub
    have hkT : k ∈ T := hsub k (mem_keys_cons.mpr (Or.inl rfl))
    have hkeys : keys ((k, v) :: t) = k :: keys t := by simp [keys]
    rw [hkeys, List.nodup_cons] at hnd
    have hknt : k ∉ keys t := hnd.1
    have hndt : (keys t).Nodup := hnd.2
    have hsub' : ∀ a ∈ keys t, a ∈ T.erase k := by
      intro a ha
      exact Finset.mem_erase.mpr ⟨fun h => hknt (h ▸ ha), hsub a (mem_keys_cons.mpr (Or.inr ha))⟩
    have hsplit : (alLookup ((k, v) :: t) k).getD 0
        + ∑ x ∈ T.erase k, (alLookup ((k, v) :: t) x).getD 0
        = ∑ x ∈ T, (alLookup ((k, v) :: t) x).getD 0 :=
      Finset.add_sum_erase T (fun a => (alLookup ((k, v) :: t) a).getD 0) hkT
    rw [← hsplit]
    have h1 : (alLookup ((k, v) :: t) k).getD 0 = v := by simp [alLookup]
    have h2 : (∑ x ∈ T.erase k, (alLookup ((k, v) :: t) x).getD 0)
        = ∑ x ∈ T.erase k, (alLookup t x).getD 0 := by
      refine Finset.sum_congr rfl ?_
      intro x hx
      have hxk : x ≠ k := (Finset.mem_erase.mp hx).1
      simp [alLookup, Ne.symm hxk]
    rw [h1, h2, ih (T.erase k) hndt hsub']
    simp [sumVals]

theorem GoodInv_mono (s : State) (T U : Finset Nat) (hTU : T ⊆ U)
    (h : GoodInv s T) : GoodInv s U :=
  ⟨h.1, fun a ha => hTU (h.2.1 a ha), h.2.2⟩

theorem updateFrom_good (s s1 : State) (fromAcc : Option Nat) (amount : Int) (T : Finset Nat)
    (hnd : (keys s.balances).Nodup) (hsub : ∀ a ∈ keys s.balances, a ∈ T)
    (hsum : s.totalSupply = sumVals s.balances)
    (h : updateFrom fromAcc amount s = .ok s1) :
    (keys s1.balances).Nodup ∧ (∀ a ∈ keys s1.balances, a ∈ optAcct fromAcc ∪ T) ∧
      s1.totalSupply = sumVals s1.balances + amount := by
  cases fromAcc with
  | none =>
    simp only [updateFrom] at h
    split at h
    · exact Except.noConfusion h
    · cases h
      exact ⟨hnd, fun a ha => Finset.mem_union_right _ (hsub a ha), by simp [hsum]⟩
  | some a =>
    simp only [updateFrom] at h
    split at h
    · exact Except.noConfusion h
    · cases h
      refine ⟨nodup_keys_alSet _ _ _ hnd, ?_, ?_⟩
      · intro b hb
        rcases mem_keys_alSet _ _ _ _ hb with hb' | hb'
        · exact Finset.mem_union_right _ (hsub b hb')
        · exact Finset.mem_union_left _ (by simp [optAcct, hb'])
      · dsimp only
        rw [sumVals_alSet]
        simp only [balance] at hsum ⊢
        omega

theorem applyTo_good (s1 : State) (toAcc : Option Nat) (amount : Int) (U : Finset Nat)
    (hnd : (keys s1.balances).Nodup) (hsub : ∀ a ∈ keys s1.balances, a ∈ U)
    (hsum : s1.totalSupply = sumVals s1.balances + amount) :
    GoodInv (applyTo toAcc amount s1) (optAcct toAcc ∪ U) := by
  cases toAcc with
  | none =>
    refine ⟨hnd, fun a ha => Finset.mem_union_right _ (hsub a ha), ?_⟩
    dsimp only [applyTo]
    omega
  | some a =>
    refine ⟨nodup_keys_alSet _ _ _ hnd, ?_, ?_⟩
    · intro b hb
      dsimp only [applyTo] at hb
      rcases mem_keys_alSet _ _ _ _ hb with hb' | hb'
      · exact Finset.mem_union_right _ (hsub b hb')
      · exact Finset.mem_union_left _ (by simp [optAcct, hb'])
    · dsimp only [applyTo]
      rw [sumVals_alSet]
      simp only [balance] at hsum ⊢
      omega

theorem update_preserves (s s' : State) (fromAcc toAcc : Option Nat) (amount : Int)
    (T : Finset Nat) (hg : GoodInv s T) (h : update fromAcc toAcc amount s = .ok s') :
    GoodInv s' (optAcct fromAcc ∪ optAcct toAcc ∪ T) := by
  obtain ⟨hnd, hsub, hsum⟩ := hg
  unfold update at h
  split at h
  · exact Except.noConfusion h
  · cases hfrom : updateFrom fromAcc amount s with
    | error e =>
      rw [hfrom] at h
      exact Except.noConfusion h
    | ok s1 =>
      rw [hfrom] at h
      obtain ⟨hnd1, hsub1, hsum1⟩ := updateFrom_good s s1 fromAcc amount T hnd hsub hsum hfrom
      have h2 : Except.ok (ε := FungibleErr) (applyTo toAcc amount s1) = Except.ok s' := h
      cases h2
      have hfin := applyTo_good s1 toAcc amount (optAcct fromAcc ∪ T) hnd1 hsub1 hsum1
      refine GoodInv_mono _ _ _ ?_ hfin
      intro x hx
      simp only [Finset.mem_union] at hx ⊢
      tauto

theorem applyOps_preserves (ops : List Op) :
    ∀ (s s' : State) (T : Finset Nat), GoodInv s T → applyOps s ops = .ok s' →
      GoodInv s' (touchedAccounts ops ∪ T) := by
  induction ops with
  | nil =>
    intro s s' T hg h
    cases h
    exact GoodInv_mono _ _ _ (fun x hx => Finset.mem_union_right _ hx) hg
  | cons op rest ih =>
    intro s s' T hg h
    unfold applyOps at h
    cases hu : update op.src op.dst op.amount s with
    | error e =>
      rw [hu] at h
      exact Except.noConfusion h
    | ok s1 =>
      rw [hu] at h
      have h2 : applyOps s1 rest = .ok s' := h
      have hg1 := update_preserves s s1 op.src op.dst op.amount T hg hu
      have hfinal := ih s1 s' _ hg1 h2
      refine GoodInv_mono _ _ _ ?_ hfinal
      intro x hx
      simp only [touchedAccounts, Finset.mem_union] at hx ⊢
      tauto

end Fungible

/-! ## Claims about the fungible ledger -/

/-- C1: starting from the empty state, after every finite sequence of
successful calls to `update` (mint = `update(None, Some(to), amount)`,
burn = `update(from, None, amount)`, transfer =
`update(Some(from), Some(to), amount)`), `total_supply()` equals the sum of
`balance(a)` over all accounts ever touched. -/
theorem fungible_conservation (ops : List Fungible.Op) (s : Fungible.State)
    (h : Fungible.applyOps Fungible.emptyState ops = .ok s) :
    Fungible.total_supply s = ∑ a ∈ Fungible.touchedAccounts ops, Fungible.balance s a := by
  have hg0 : Fungible.GoodInv Fungible.emptyState ∅ :=
    ⟨by simp [Fungible.emptyState, Fungible.keys],
     by simp [Fungible.emptyState, Fungible.keys],
     by simp [Fungible.emptyState, Fungible.sumVals]⟩
  have hg := Fungible.applyOps_preserves ops Fungible.emptyState s ∅ hg0 h
  rw [Finset.union_empty] at hg
  obtain ⟨hnd, hsub, hsum⟩ := hg
  have hs := Fungible.sum_getD_eq_sumVals s.balances (Fungible.touchedAccounts ops) hnd hsub
  unfold Fungible.total_supply Fungible.balance
  rw [hsum, ← hs]

set_option maxRecDepth 4000 in
/-- Witness for C1: mint 3 to account 0, then transfer 2 from account 0 to
account 1; supply 3 equals the balances 1 + 2 of the touched accounts. -/
theorem fungible_conservation_witness :
    Fungible.total_supply ⟨3, [(0, 1), (1, 2)]⟩ =
      ∑ a ∈ Fungible.touchedAccounts [⟨none, some 0, 3⟩, ⟨some 0, some 1, 2⟩],
        Fungible.balance ⟨3, [(0, 1), (1, 2)]⟩ a :=
  fungible_conservation [⟨none, some 0, 3⟩, ⟨some 0, some 1, 2⟩] ⟨3, [(0, 1), (1, 2)]⟩
    (by decide)

/-- Counterexample to C2 as stated: with current ledger 10 and a stored but
expired entry (amount 10, expiry 5), the expiry-adjusted allowance `old` is
0 and `k = 5` exceeds it, yet `spend_allowance` does not fail with
`InsufficientAllowance` — it fails with `InvalidLiveUntilLedger`. -/
theorem spend_allowance_expired_cex :
    Fungible.allowance ⟨10, 100⟩ (some ⟨10, 5⟩) = 0 ∧
    Fungible.spend_allowance ⟨10, 100⟩ (some ⟨10, 5⟩) 5 =
      .error .InvalidLiveUntilLedger ∧
    Fungible.spend_allowance ⟨10, 100⟩ (some ⟨10, 5⟩) 5 ≠
      .error .InsufficientAllowance := by
  decide

/-- C2 (amended): with `old` the *stored* allowance amount (the raw
`allowance_data` value, ignoring expiry) and the stored expiry within the
host maximum: `spend_allowance(o,s,k)` fails with `InsufficientAllowance`
iff `k > old`; for `k = 0 ≤ old` it succeeds leaving the entry untouched;
for `0 < k ≤ old` it succeeds iff the entry is unexpired or `k = old`,
storing amount `old − k` with the expiry unchanged, after which
`allowance(o,s)` yields `old − k`; for `0 < k < old` with an expired entry
it fails with `InvalidLiveUntilLedger`. -/
theorem spend_allowance_spec (env : Fungible.LedgerEnv)
    (entry : Option Fungible.AllowanceData) (k old : Int) (live : Nat)
    (hk : 0 ≤ k) (hentry : Fungible.allowance_data entry = ⟨old, live⟩)
    (hmax : live ≤ env.maxLive) :
    (Fungible.spend_allowance env entry k = .error .InsufficientAllowance ↔ old < k) ∧
    (k = 0 → 0 ≤ old → Fungible.spend_allowance env entry k = .ok entry) ∧
    (0 < k → k ≤ old → (env.seq ≤ live ∨ k = old) →
      Fungible.spend_allowance env entry k = .ok (some ⟨old - k, live⟩) ∧
      Fungible.allowance env (some ⟨old - k, live⟩) = old - k) ∧
    (0 < k → k < old → live < env.seq →
      Fungible.spend_allowance env entry k = .error .InvalidLiveUntilLedger) := by
  have hk0 : ¬k < 0 := not_lt.mpr hk
  refine ⟨?_, ?_, ?_, ?_⟩
  · constructor
    · intro h
      by_contra hlt
      simp only [Fungible.spend_allowance, hentry, if_neg hk0] at h
      rw [if_neg hlt] at h
      split_ifs at h with hpos
      · simp only [Fungible.set_allowance] at h
        split_ifs at h <;> simp_all
    · intro hlt
      simp only [Fungible.spend_allowance, hentry, if_neg hk0]
      rw [if_pos hlt]
  · intro hzero hold
    subst hzero
    simp only [Fungible.spend_allowance, hentry]
    rw [if_neg (by omega : ¬(0 : Int) < 0), if_neg (not_lt.mpr hold),
      if_neg (by omega : ¬(0 : Int) < 0)]
  · intro hpos hle hcase
    simp only [Fungible.spend_allowance, hentry, if_neg hk0]
    rw [if_neg (not_lt.mpr hle), if_pos hpos]
    have hcond : ¬(env.maxLive < live ∨ (0 < old - k ∧ live < env.seq)) := by
      rcases hcase with hc | hc
      · push_neg
        exact ⟨by omega, fun h0 => by omega⟩
      · push_neg
        exact ⟨by omega, fun h0 => by omega⟩
    have hok : Fungible.set_allowance env (old - k) live = .ok ⟨old - k, live⟩ := by
      simp only [Fungible.set_allowance]
      rw [if_neg (by omega : ¬old - k < 0), if_neg hcond]
    rw [hok]
    refine ⟨rfl, ?_⟩
    simp only [Fungible.allowance, Fungible.allowance_data, Option.getD_some]
    split_ifs with hexp
    · rcases hcase with hc | hc
      · omega
      · omega
    · rfl
  · intro hpos hlt hexp
    simp only [Fungible.spend_allowance, hentry, if_neg hk0]
    rw [if_neg (by omega : ¬old < k), if_pos hpos]
    have herr : Fungible.set_allowance env (old - k) live =
        .error .InvalidLiveUntilLedger := by
      simp only [Fungible.set_allowance]
      rw [if_neg (by omega : ¬old - k < 0), if_pos (Or.inr ⟨by omega, hexp⟩)]
    rw [herr]

/-- Witness for C2 (amended): current ledger 3, entry (amount 10, expiry 7),
spend 4. -/
theorem spend_allowance_spec_witness :
    (Fungible.spend_allowance ⟨3, 50⟩ (some ⟨10, 7⟩) 4 =
        .error .InsufficientAllowance ↔ (10 : Int) < 4) ∧
    ((4 : Int) = 0 → (0 : Int) ≤ 10 →
      Fungible.spend_allowance ⟨3, 50⟩ (some ⟨10, 7⟩) 4 = .ok (some ⟨10, 7⟩)) ∧
    ((0 : Int) < 4 → (4 : Int) ≤ 10 → ((3 : Nat) ≤ 7 ∨ (4 : Int) = 10) →
      Fungible.spend_allowance ⟨3, 50⟩ (some ⟨10, 7⟩) 4 = .ok (some ⟨10 - 4, 7⟩) ∧
      Fungible.allowance ⟨3, 50⟩ (some ⟨10 - 4, 7⟩) = 10 - 4) ∧
    ((0 : Int) < 4 → (4 : Int) < 10 → (7 : Nat) < 3 →
      Fungible.spend_allowance ⟨3, 50⟩ (some ⟨10, 7⟩) 4 =
        .error .InvalidLiveUntilLedger) :=
  spend_allowance_spec ⟨3, 50⟩ (some ⟨10, 7⟩) 4 10 7 (by decide) (by decide) (by decide)

/-- Counterexample to C6 as stated: with current ledger 10 and maximum 100,
`set_allowance` with amount 0 and `live_until_ledger = 5` succeeds, although
5 is neither 0 nor within `[current_tick, max_allowed_tick]`. -/
theorem set_allowance_cex :
    Fungible.set_allowance ⟨10, 100⟩ 0 5 = .ok ⟨0, 5⟩ ∧
    ¬((5 : Nat) = 0 ∨ ((10 : Nat) ≤ 5 ∧ (5 : Nat) ≤ 100)) := by
  decide

/-- C6 (amended): for every amount ≥ 0, `set_allowance` succeeds exactly
when `live_until_ledger ≤ max_allowed_tick` and (amount = 0 or
`live_until_ledger ≥ current_tick`); any violation raises
`InvalidLiveUntilLedger`. -/
theorem set_allowance_spec (env : Fungible.LedgerEnv) (amount : Int) (live : Nat)
    (h : 0 ≤ amount) :
    (Fungible.set_allowance env amount live = .ok ⟨amount, live⟩ ↔
      (live ≤ env.maxLive ∧ (amount = 0 ∨ env.seq ≤ live))) ∧
    (¬(live ≤ env.maxLive ∧ (amount = 0 ∨ env.seq ≤ live)) →
      Fungible.set_allowance env amount live = .error .InvalidLiveUntilLedger) := by
  unfold Fungible.set_allowance
  rw [if_neg (not_lt.mpr h)]
  split_ifs with hbad
  · refine ⟨⟨fun hh => by simp at hh, fun hcond => absurd hcond (by omega)⟩,
      fun _ => rfl⟩
  · push_neg at hbad
    refine ⟨⟨fun _ => ⟨hbad.1, by omega⟩, fun _ => rfl⟩, fun hcond => absurd ?_ hcond⟩
    exact ⟨hbad.1, by omega⟩

/-- Witness for C6 (amended): current ledger 10, maximum 100, amount 7,
expiry 20. -/
theorem set_allowance_spec_witness :
    (Fungible.set_allowance ⟨10, 100⟩ 7 20 = .ok ⟨7, 20⟩ ↔
      ((20 : Nat) ≤ 100 ∧ ((7 : Int) = 0 ∨ (10 : Nat) ≤ 20))) ∧
    (¬((20 : Nat) ≤ 100 ∧ ((7 : Int) = 0 ∨ (10 : Nat) ≤ 20)) →
      Fungible.set_allowance ⟨10, 100⟩ 7 20 = .error .InvalidLiveUntilLedger) :=
  set_allowance_spec ⟨10, 100⟩ 7 20 (by decide)

/-! ## Claims about the consecutive ledger -/

/-- The backward scan returns the record at the nearest index `≤ token_id`
that has one. -/
theorem scanBackOwner_eq_of_nearest (l : List (Nat × Nat)) (a : Nat) :
    ∀ token_id j : Nat, j ≤ token_id → alLookup l j = some a →
      (∀ j', j < j' → j' ≤ token_id → alLookup l j' = none) →
      Consecutive.scanBackOwner l token_id = some a := by
  intro token_id
  induction token_id with
  | zero =>
    intro j hj hl _
    have hj0 : j = 0 := Nat.le_zero.mp hj
    subst hj0
    simpa [Consecutive.scanBackOwner] using hl
  | succ n ih =>
    intro j hj hl hnone
    by_cases hj' : j = n + 1
    · subst hj'
      simp [Consecutive.scanBackOwner, hl]
    · have hj2 : j ≤ n := Nat.lt_succ_iff.mp (lt_of_le_of_ne hj hj')
      have hn1 : alLookup l (n + 1) = none :=
        hnone (n + 1) (Nat.lt_succ_of_le hj2) le_rfl
      simp only [Consecutive.scanBackOwner, hn1]
      exact ih j hj2 hl fun j' h1 h2 => hnone j' h1 (Nat.le_succ_of_le h2)

/-- C3: `Consecutive::owner_of(token_id)` fails with `NonExistentToken` when
`token_id ≥ next_token_id` or a burn marker is set at `token_id`; otherwise
it returns the account recorded at the nearest index ≤ `token_id` that has
an owner record (scanning backward, inclusive). -/
theorem consecutive_owner_of_spec (s : Consecutive.State) (token_id : Nat) :
    (s.counter ≤ token_id ∨ Consecutive.isBurned s token_id →
      Consecutive.owner_of s token_id = .error .NonExistentToken) ∧
    (token_id < s.counter → ¬Consecutive.isBurned s token_id →
      ∀ j a, j ≤ token_id → alLookup s.owners j = some a →
        (∀ j', j < j' → j' ≤ token_id → alLookup s.owners j' = none) →
        Consecutive.owner_of s token_id = .ok a) := by
  constructor
  · intro h
    simp only [Consecutive.owner_of, if_pos h]
  · intro h1 h2 j a hj hl hnone
    have hcond : ¬(s.counter ≤ token_id ∨ Consecutive.isBurned s token_id) := by
      push_neg
      exact ⟨h1, h2⟩
    simp only [Consecutive.owner_of, if_neg hcond]
    rw [scanBackOwner_eq_of_nearest s.owners a token_id j hj hl hnone]

/-- Witness for C3: counter 3, owner record (2 ↦ 7); `owner_of 2` resolves
to account 7. -/
theorem consecutive_owner_of_spec_witness :
    Consecutive.owner_of ⟨3, [(2, 7)], [], [], []⟩ 2 = .ok 7 :=
  (consecutive_owner_of_spec ⟨3, [(2, 7)], [], [], []⟩ 2).2 (by decide) (by decide)
    2 7 (by decide) (by decide)
    (fun j' h1 h2 => absurd (lt_of_lt_of_le h1 h2) (lt_irrefl _))

set_option maxRecDepth 2000 in
/-- Counterexample to C4 as stated: after `batch_mint`-style state with
counter 2 and owner record (0 ↦ account 0), transferring token 1 (the last
minted token) succeeds; the successor slot 2 is unminted, unowned, and
unburned, yet no owner record is written at 2 — the write requires the
successor to be *minted* (`token_id + 1 < next_token_id`), not unminted. -/
theorem consecutive_boundary_cex :
    Consecutive.update ⟨2, [(0, 0)], [], [], [(0, 2)]⟩ (some 0) (some 1) 1 =
      .ok ⟨2, [(0, 0), (1, 1)], [], [], [(0, 1), (1, 1)]⟩ ∧
    (⟨2, [(0, 0)], [], [], [(0, 2)]⟩ : Consecutive.State).counter ≤ 2 ∧
    alLookup (⟨2, [(0, 0)], [], [], [(0, 2)]⟩ : Consecutive.State).owners 2 = none ∧
    ¬Consecutive.isBurned ⟨2, [(0, 0)], [], [], [(0, 2)]⟩ 2 ∧
    alLookup (⟨2, [(0, 0), (1, 1)], [], [], [(0, 1), (1, 1)]⟩ :
      Consecutive.State).owners 2 = none := by
  decide

/-- C4 (amended): on every successful
`Consecutive::update(Some(from), _, token_id)`, an explicit owner record
equal to `from` appears at `token_id + 1` exactly when the successor slot is
*minted* (`token_id + 1 < next_token_id`), unowned, and unburned; in all
other cases `set_owner_for` leaves the slot unchanged and does not panic —
exactly these three checks decide the write. -/
theorem consecutive_update_boundary (s s' : Consecutive.State) (f : Nat)
    (toAcc : Option Nat) (token_id : Nat)
    (h : Consecutive.update s (some f) toAcc token_id = .ok s') :
    alLookup s'.owners (token_id + 1) =
      if token_id + 1 < s.counter ∧ alLookup s.owners (token_id + 1) = none ∧
          ¬Consecutive.isBurned s (token_id + 1)
      then some f else alLookup s.owners (token_id + 1) := by
  simp only [Consecutive.update] at h
  split at h
  · exact Except.noConfusion h
  · rename_i owner howner
    split_ifs at h with hne
    split at h
    · exact Except.noConfusion h
    · rename_i s1 hdec
      simp only [Consecutive.decrease_balance] at hdec
      split_ifs at hdec with hcbal
      cases hdec
      simp only [Consecutive.set_owner_for, Consecutive.isBurned] at h ⊢
      by_cases hcond : token_id + 1 < s.counter ∧
          alLookup s.owners (token_id + 1) = none ∧
          ¬(alLookup s.burned (token_id + 1)).getD false = true
      · rw [if_pos hcond] at h
        rw [if_pos hcond]
        cases toAcc with
        | some t =>
          simp only [Consecutive.updateTo] at h
          split at h
          · exact Except.noConfusion h
          · rename_i s4 hincb
            cases h
            simp only [Consecutive.increase_balance] at hincb
            split_ifs at hincb with hoc
            cases hincb
            simp only [alLookup_alSet]
            rw [if_neg (by omega : ¬token_id = token_id + 1)]
            simp
        | none =>
          simp only [Consecutive.updateTo] at h
          cases h
          simp only [alLookup_alRemove]
          rw [if_neg (by omega : ¬token_id = token_id + 1)]
          simp only [alLookup_alSet]
          simp
      · rw [if_neg hcond] at h
        rw [if_neg hcond]
        cases toAcc with
        | some t =>
          simp only [Consecutive.updateTo] at h
          split at h
          · exact Except.noConfusion h
          · rename_i s4 hincb
            cases h
            simp only [Consecutive.increase_balance] at hincb
            split_ifs at hincb with hoc
            cases hincb
            simp only [alLookup_alSet]
            rw [if_neg (by omega : ¬token_id = token_id + 1)]
        | none =>
          simp only [Consecutive.updateTo] at h
          cases h
          simp only [alLookup_alRemove]
          rw [if_neg (by omega : ¬token_id = token_id + 1)]

set_option maxRecDepth 2000 in
/-- Witness for C4 (amended): counter 3, transferring token 1 writes the
boundary record `from` at slot 2, which is minted, unowned and unburned. -/
theorem consecutive_update_boundary_witness :
    alLookup (⟨3, [(0, 0), (2, 0), (1, 1)], [], [], [(0, 2), (1, 1)]⟩ :
        Consecutive.State).owners 2 =
      if 2 < (⟨3, [(0, 0)], [], [], [(0, 3)]⟩ : Consecutive.State).counter ∧
          alLookup (⟨3, [(0, 0)], [], [], [(0, 3)]⟩ : Consecutive.State).owners 2 = none ∧
          ¬Consecutive.isBurned ⟨3, [(0, 0)], [], [], [(0, 3)]⟩ 2
      then some 0
      else alLookup (⟨3, [(0, 0)], [], [], [(0, 3)]⟩ : Consecutive.State).owners 2 :=
  consecutive_update_boundary ⟨3, [(0, 0)], [], [], [(0, 3)]⟩
    ⟨3, [(0, 0), (2, 0), (1, 1)], [], [], [(0, 2), (1, 1)]⟩ 0 (some 1) 1 (by decide)

set_option maxRecDepth 100000 in
/-- C5: from the empty state, `batch_mint(owner = 0, 100)` makes
`owner_of(id) = 0` for every `id < 100`; after `transfer(0, 1, 50)`,
`owner_of(50) = 1`, `owner_of(51) = 0` (the boundary at 51 is repaired) and
`owner_of(49) = 0`. -/
theorem consecutive_inference_scenario :
    Consecutive.batch_mint Consecutive.emptyState 0 100 =
      .ok (⟨100, [(0, 0)], [], [], [(0, 100)]⟩, 99) ∧
    (∀ token_id, token_id < 100 →
      Consecutive.owner_of ⟨100, [(0, 0)], [], [], [(0, 100)]⟩ token_id = .ok 0) ∧
    Consecutive.transfer ⟨100, [(0, 0)], [], [], [(0, 100)]⟩ 0 1 50 =
      .ok ⟨100, [(0, 0), (51, 0), (50, 1)], [], [], [(0, 99), (1, 1)]⟩ ∧
    Consecutive.owner_of ⟨100, [(0, 0), (51, 0), (50, 1)], [], [], [(0, 99), (1, 1)]⟩ 50 =
      .ok 1 ∧
    Consecutive.owner_of ⟨100, [(0, 0), (51, 0), (50, 1)], [], [], [(0, 99), (1, 1)]⟩ 51 =
      .ok 0 ∧
    Consecutive.owner_of ⟨100, [(0, 0), (51, 0), (50, 1)], [], [], [(0, 99), (1, 1)]⟩ 49 =
      .ok 0 := by
  decide

set_option maxRecDepth 2000 in
/-- Witness for C5: the batch-minted state resolves token 7 to the batch
owner. -/
theorem consecutive_inference_scenario_witness :
    Consecutive.owner_of ⟨100, [(0, 0)], [], [], [(0, 100)]⟩ 7 = .ok 0 :=
  consecutive_inference_scenario.2.1 7 (by decide)

/-- C10: `Consecutive::batch_mint(to, amount)` is only well-behaved for
`amount ≥ 1`: it then reserves exactly ids `first_id..first_id+amount-1`
(bumping the counter by `amount`) and records `to` as owner of `first_id`.
With `amount = 0` the id reservation does not fail, an owner record is still
written at the not-yet-minted id equal to the current counter (when
`first_id > 0` the call even returns normally), and the last-id computation
`first_id + amount - 1` underflows the unsigned `TokenId` type when
`first_id = 0`. -/
theorem consecutive_batch_mint_spec (s : Consecutive.State) (toAcc amount : Nat)
    (hc : s.counter + amount ≤ TOKEN_ID_MAX)
    (hb : Consecutive.nftBalance s toAcc + amount ≤ TOKEN_ID_MAX) :
    (1 ≤ amount → ∃ s', Consecutive.batch_mint s toAcc amount =
        .ok (s', s.counter + amount - 1) ∧
      s'.counter = s.counter + amount ∧
      alLookup s'.owners s.counter = some toAcc) ∧
    (amount = 0 →
      Consecutive.increment_token_id s 0 = .ok (s, s.counter) ∧
      (0 < s.counter → ∃ s', Consecutive.batch_mint s toAcc 0 =
          .ok (s', s.counter - 1) ∧
        s'.counter = s.counter ∧
        alLookup s'.owners s.counter = some toAcc) ∧
      (s.counter = 0 → Consecutive.batch_mint s toAcc 0 = .error .ArithUnderflow)) := by
  have h1 : ∀ amt, s.counter + amt ≤ TOKEN_ID_MAX →
      Consecutive.increment_token_id s amt =
        .ok ({ s with counter := s.counter + amt }, s.counter) := by
    intro amt hamt
    simp only [Consecutive.increment_token_id]
    rw [if_neg (not_lt.mpr hamt)]
  have hbal : ∀ amt, Consecutive.nftBalance s toAcc + amt ≤ TOKEN_ID_MAX →
      Consecutive.increase_balance
        { s with
          counter := s.counter + amt,
          owners := alSet s.owners s.counter toAcc } toAcc amt =
        .ok { s with
          counter := s.counter + amt,
          owners := alSet s.owners s.counter toAcc,
          balances := alSet s.balances toAcc
            (Consecutive.nftBalance s toAcc + amt) } := by
    intro amt hamt
    have hb' : ¬TOKEN_ID_MAX < (alLookup s.balances toAcc).getD 0 + amt := by
      simpa [Consecutive.nftBalance] using not_lt.mpr hamt
    simp only [Consecutive.increase_balance, Consecutive.nftBalance]
    rw [if_neg hb']
  constructor
  · intro ha
    refine ⟨{ s with
      counter := s.counter + amount,
      owners := alSet s.owners s.counter toAcc,
      balances := alSet s.balances toAcc
        (Consecutive.nftBalance s toAcc + amount) }, ?_, rfl, ?_⟩
    · simp only [Consecutive.batch_mint, h1 amount hc, hbal amount hb]
      rw [if_neg (by omega : ¬s.counter + amount = 0)]
    · simp [alLookup_alSet]
  · intro ha
    subst ha
    refine ⟨?_, ?_, ?_⟩
    · have h2 := h1 0 hc
      rw [Nat.add_zero] at h2
      exact h2
    · intro hpos
      refine ⟨{ s with
        counter := s.counter + 0,
        owners := alSet s.owners s.counter toAcc,
        balances := alSet s.balances toAcc
          (Consecutive.nftBalance s toAcc + 0) }, ?_, by simp, ?_⟩
      · simp only [Consecutive.batch_mint, h1 0 hc, hbal 0 hb]
        rw [if_neg (by omega : ¬s.counter + 0 = 0)]
        simp
      · simp [alLookup_alSet]
    · intro hzero
      simp only [Consecutive.batch_mint, h1 0 hc, hbal 0 hb]
      rw [if_pos (by omega : s.counter + 0 = 0)]

set_option maxRecDepth 2000 in
/-- Witness for C10: counter 2, empty maps, mint 3 tokens to account 5. -/
theorem consecutive_batch_mint_spec_witness :
    (1 ≤ 3 → ∃ s', Consecutive.batch_mint ⟨2, [], [], [], []⟩ 5 3 =
        .ok (s', (⟨2, [], [], [], []⟩ : Consecutive.State).counter + 3 - 1) ∧
      s'.counter = (⟨2, [], [], [], []⟩ : Consecutive.State).counter + 3 ∧
      alLookup s'.owners (⟨2, [], [], [], []⟩ : Consecutive.State).counter = some 5) ∧
    ((3 : Nat) = 0 →
      Consecutive.increment_token_id ⟨2, [], [], [], []⟩ 0 =
        .ok (⟨2, [], [], [], []⟩, (⟨2, [], [], [], []⟩ : Consecutive.State).counter) ∧
      (0 < (⟨2, [], [], [], []⟩ : Consecutive.State).counter →
        ∃ s', Consecutive.batch_mint ⟨2, [], [], [], []⟩ 5 0 =
          .ok (s', (⟨2, [], [], [], []⟩ : Consecutive.State).counter - 1) ∧
        s'.counter = (⟨2, [], [], [], []⟩ : Consecutive.State).counter ∧
        alLookup s'.owners (⟨2, [], [], [], []⟩ : Consecutive.State).counter = some 5) ∧
      ((⟨2, [], [], [], []⟩ : Consecutive.State).counter = 0 →
        Consecutive.batch_mint ⟨2, [], [], [], []⟩ 5 0 = .error .ArithUnderflow)) :=
  consecutive_batch_mint_spec ⟨2, [], [], [], []⟩ 5 3 (by decide) (by decide)

set_option maxRecDepth 4000 in
/-- C9: cap enforcement. After `set_cap(1000)` from zero supply, a
cap-checked mint of 600 succeeds, a further cap-checked mint of 500 fails
with `ExceededCap`, minting exactly up to 1000 succeeds, and in general
`check_cap` fails with `ExceededCap` iff `cap < total_supply + amount`. -/
theorem cap_enforcement :
    Fungible.set_cap 1000 = .ok 1000 ∧
    Fungible.capped_mint (some 1000) Fungible.emptyState 0 600 = .ok ⟨600, [(0, 600)]⟩ ∧
    Fungible.capped_mint (some 1000) ⟨600, [(0, 600)]⟩ 0 500 = .error .ExceededCap ∧
    Fungible.capped_mint (some 1000) ⟨600, [(0, 600)]⟩ 0 400 = .ok ⟨1000, [(0, 1000)]⟩ ∧
    (∀ cap supply amount : Int,
      Fungible.check_cap (some cap) supply amount = .error .ExceededCap ↔
        cap < supply + amount) := by
  refine ⟨by decide, by decide, by decide, by decide, ?_⟩
  intro cap supply amount
  simp only [Fungible.check_cap]
  split_ifs with h1
  · exact ⟨fun _ => by omega, fun _ => rfl⟩
  · exact ⟨fun hh => by simp at hh, fun hh => absurd hh (by omega)⟩

/-! ## Claims about the enumerable index -/

/-- C7: `Enumerable::remove_from_owner_enumeration(owner, t)` fails with
`TokenNotFoundInOwnerList` when `t`'s reverse pointer is absent; when the
reverse pointer holds `idx`: if `idx` is the last slot (the owner's
balance), only the last forward slot and `t`'s reverse pointer are deleted;
if not, and the last slot holds a token `ltid` (distinct from `t`, as any
consistent index guarantees), the call succeeds, `ltid` is moved into the
freed slot with its reverse pointer updated to `idx`, and the last forward
slot and `t`'s reverse pointer are deleted. -/
theorem enumerable_remove_owner_spec (s : Enumerable.State) (owner t : Nat) :
    (alLookup s.ownerTokensIndex t = none →
      Enumerable.remove_from_owner_enumeration s owner t =
        .error .TokenNotFoundInOwnerList) ∧
    (∀ idx, alLookup s.ownerTokensIndex t = some idx →
      (idx = Enumerable.nftBalance s owner →
        Enumerable.remove_from_owner_enumeration s owner t = .ok { s with
          ownerTokens := alRemove s.ownerTokens (owner, idx),
          ownerTokensIndex := alRemove s.ownerTokensIndex t }) ∧
      (idx ≠ Enumerable.nftBalance s owner →
        ∀ ltid, alLookup s.ownerTokens (owner, Enumerable.nftBalance s owner) = some ltid →
          ltid ≠ t →
          ∃ s', Enumerable.remove_from_owner_enumeration s owner t = .ok s' ∧
            alLookup s'.ownerTokens (owner, idx) = some ltid ∧
            alLookup s'.ownerTokensIndex ltid = some idx ∧
            alLookup s'.ownerTokens (owner, Enumerable.nftBalance s owner) = none ∧
            alLookup s'.ownerTokensIndex t = none)) := by
  constructor
  · intro h
    simp [Enumerable.remove_from_owner_enumeration, h]
  · intro idx hidx
    constructor
    · intro he
      subst he
      simp [Enumerable.remove_from_owner_enumeration, hidx]
    · intro hne ltid hltid hlt
      refine ⟨{ s with
        ownerTokens := alRemove (alSet s.ownerTokens (owner, idx) ltid)
          (owner, Enumerable.nftBalance s owner),
        ownerTokensIndex := alRemove (alSet s.ownerTokensIndex ltid idx) t },
        ?_, ?_, ?_, ?_, ?_⟩
      · simp only [Enumerable.remove_from_owner_enumeration, hidx]
        rw [if_pos hne]
        simp only [hltid]
      · rw [alLookup_alRemove,
          if_neg (by simp only [Prod.mk.injEq]; exact fun hh => hne hh.2.symm),
          alLookup_alSet, if_pos rfl]
      · rw [alLookup_alRemove, if_neg (fun hh => hlt hh.symm),
          alLookup_alSet, if_pos rfl]
      · rw [alLookup_alRemove, if_pos rfl]
      · rw [alLookup_alRemove, if_pos rfl]

/-- Witness for C7: owner 0 holds tokens [10, 20, 30] at indices 0-2, the
post-decrement balance is 2; removing token 10 moves 30 into index 0. -/
theorem enumerable_remove_owner_spec_witness :
    ∃ s', Enumerable.remove_from_owner_enumeration
        ⟨[((0, 0), 10), ((0, 1), 20), ((0, 2), 30)], [(10, 0), (20, 1), (30, 2)],
          [], [], [(0, 2)]⟩ 0 10 = .ok s' ∧
      alLookup s'.ownerTokens (0, 0) = some 30 ∧
      alLookup s'.ownerTokensIndex 30 = some 0 ∧
      alLookup s'.ownerTokens (0, Enumerable.nftBalance
        ⟨[((0, 0), 10), ((0, 1), 20), ((0, 2), 30)], [(10, 0), (20, 1), (30, 2)],
          [], [], [(0, 2)]⟩ 0) = none ∧
      alLookup s'.ownerTokensIndex 10 = none :=
  ((enumerable_remove_owner_spec
      ⟨[((0, 0), 10), ((0, 1), 20), ((0, 2), 30)], [(10, 0), (20, 1), (30, 2)],
        [], [], [(0, 2)]⟩ 0 10).2 0 (by decide)).2 (by decide) 30 (by decide) (by decide)

/-- Counterexample to C8 as stated: with a global reverse pointer `9 ↦ 2`
present but no forward entry at index 2,
`remove_from_global_enumeration(9, 2)` still fails with
`TokenNotFoundInGlobalList` — so the failure is not *exactly* when the
reverse pointer is absent, and the unconditional swap is not equivalent to
the conditional algorithm on arbitrary map states (the conditional variant
succeeds here). -/
theorem remove_global_cex :
    alLookup (⟨[], [], [], [(9, 2)], []⟩ : Enumerable.State).globalTokensIndex 9 =
      some 2 ∧
    Enumerable.remove_from_global_enumeration ⟨[], [], [], [(9, 2)], []⟩ 9 2 =
      .error .TokenNotFoundInGlobalList ∧
    Enumerable.remove_from_global_conditional ⟨[], [], [], [(9, 2)], []⟩ 9 2 =
      .ok ⟨[], [], [], [], []⟩ := by
  decide

/-- C8 (amended): `Enumerable::remove_from_global_enumeration(t, n)` fails
with `TokenNotFoundInGlobalList` exactly when `t`'s global reverse pointer
is absent or the forward entry at index `n` is absent; and whenever the
paired maps are consistent at the last slot (a reverse pointer `t ↦ n`
implies the forward entry at `n` is `t`), it leaves the global maps in
exactly the state the owner-local conditional swap-with-last algorithm
would produce — including when `t` itself occupies the last slot. -/
theorem enumerable_remove_global_spec (s : Enumerable.State) (t n : Nat)
    (hcons : alLookup s.globalTokensIndex t = some n →
      alLookup s.globalTokens n = some t) :
    (Enumerable.remove_from_global_enumeration s t n =
        .error .TokenNotFoundInGlobalList ↔
      alLookup s.globalTokensIndex t = none ∨ alLookup s.globalTokens n = none) ∧
    Enumerable.remove_from_global_enumeration s t n =
      Enumerable.remove_from_global_conditional s t n := by
  cases hrev : alLookup s.globalTokensIndex t with
  | none =>
    constructor
    · simp [Enumerable.remove_from_global_enumeration, hrev]
    · simp [Enumerable.remove_from_global_enumeration,
        Enumerable.remove_from_global_conditional, hrev]
  | some idx =>
    cases hfwd : alLookup s.globalTokens n with
    | none =>
      have hin : idx ≠ n := by
        intro hh
        subst hh
        rw [hcons hrev] at hfwd
        exact Option.noConfusion hfwd
      constructor
      · simp [Enumerable.remove_from_global_enumeration, hrev, hfwd]
      · simp only [Enumerable.remove_from_global_enumeration,
          Enumerable.remove_from_global_conditional, hrev, hfwd]
        rw [if_pos hin]
    | some ltid =>
      constructor
      · simp [Enumerable.remove_from_global_enumeration, hrev, hfwd]
      · by_cases hin : idx = n
        · subst hin
          have hlt : ltid = t := by
            have hft := hcons hrev
            rw [hfwd] at hft
            exact (Option.some_inj.mp hft)
          subst hlt
          simp only [Enumerable.remove_from_global_enumeration,
            Enumerable.remove_from_global_conditional, hrev, hfwd]
          rw [if_neg (by simp)]
          rw [alRemove_alSet_self, alRemove_alSet_self]
        · simp only [Enumerable.remove_from_global_enumeration,
            Enumerable.remove_from_global_conditional, hrev, hfwd]
          rw [if_pos hin]

/-- Witness for C8 (amended): global lists [9, 7] (token 9 at index 0,
token 7 at index 1), removing token 9 with last index 1. -/
theorem enumerable_remove_global_spec_witness :
    (Enumerable.remove_from_global_enumeration
        ⟨[], [], [(0, 9), (1, 7)], [(9, 0), (7, 1)], []⟩ 9 1 =
        .error .TokenNotFoundInGlobalList ↔
      alLookup (⟨[], [], [(0, 9), (1, 7)], [(9, 0), (7, 1)], []⟩ :
        Enumerable.State).globalTokensIndex 9 = none ∨
      alLookup (⟨[], [], [(0, 9), (1, 7)], [(9, 0), (7, 1)], []⟩ :
        Enumerable.State).globalTokens 1 = none) ∧
    Enumerable.remove_from_global_enumeration
        ⟨[], [], [(0, 9), (1, 7)], [(9, 0), (7, 1)], []⟩ 9 1 =
      Enumerable.remove_from_global_conditional
        ⟨[], [], [(0, 9), (1, 7)], [(9, 0), (7, 1)], []⟩ 9 1 :=
  enumerable_remove_global_spec ⟨[], [], [(0, 9), (1, 7)], [(9, 0), (7, 1)], []⟩ 9 1
    (by decide)


end OZStellar
